import Mathlib

/-!
Verification of the `array_ext` Rust library (`src/lib.rs`, `src/sized.rs`).

A Rust array `[T; N]` is embedded as a Lean `List T` whose length is `N`
(length hypotheses appear explicitly in the theorems). A Rust iterator is
embedded as the list of items it has yet to yield; a `FnMut` closure is
embedded as a state-threading function `σ → ... → σ × ...`, so that the
number and order of closure invocations is observable. A Rust expression
that can panic (`Option::unwrap` on an iterator item) is embedded as an
`Option` result, `none` marking the panic.
-/

set_option autoImplicit false

namespace ArrayExt

universe u v w x y z
variable {T : Type u} {U : Type v} {V : Type w} {W : Type x} {X : Type y} {A : Type z}

/-- Embeds `Array::len` for `[T; N]`: returns `N`, the length of the array. -/
def len (a : List T) : Nat :=
  a.length

/-- Embeds `Array::get` for `[T; N]` (src/lib.rs:142-149):
`if index < N { Some(&self[index]) } else { None }`. -/
def get (a : List T) (index : Nat) : Option T :=
  if h : index < a.length then some (a.get ⟨index, h⟩) else none

/-- Embeds `Array::get_mut` for `[T; N]` (src/lib.rs:151-158): same bounds test as
`get`; the returned mutable reference is embedded as the element it points
at together with the array that results from writing through it. -/
def get_mut (a : List T) (index : Nat) : Option (T × (T → List T)) :=
  if h : index < a.length then some (a.get ⟨index, h⟩, fun v => a.set index v) else none

/-- Embeds `Array::as_slice` for `[T; N]` (src/lib.rs:160-163): the whole array
viewed as a slice; under the list embedding this is the list itself. -/
def as_slice (a : List T) : List T :=
  a

/-- Core of Rust's `[T; N]::map` with a `FnMut` closure: visits the
elements in ascending index order, threading the closure's mutable state. -/
def mapCore (f : A → T → A × U) : A → List T → A × List U
  | s, [] => (s, [])
  | s, t :: ts =>
    let p := f s t
    let q := mapCore f p.1 ts
    (q.1, p.2 :: q.2)

/-- Embeds `[T; N]::map` with a pure closure: the value part of `mapCore`. -/
def map (a : List T) (f : T → U) : List U :=
  (mapCore (fun s t => (s, f t)) () a).2

/-- Embeds `Array::map_` (src/lib.rs:170-176): delegates to `self.map(f)`. -/
def map_ (a : List T) (f : T → T) : List T :=
  map a f

/-- Embeds `Array::foldl` (src/lib.rs:178-187): `for val in self { acc = f(acc, val) }`. -/
def foldl : List T → A → (A → T → A) → A
  | [], acc, _ => acc
  | t :: ts, acc, f => foldl ts (f acc t) f

/-- Embeds `Array::foldr` (src/lib.rs:189-198): the same loop over
`self.into_iter().rev()`, i.e. a forward fold of the reversed array. -/
def foldr (a : List T) (acc : A) (f : A → T → A) : A :=
  foldl a.reverse acc f

/-- Core of `std::array::from_fn`: calls the closure on the listed indices
in order, threading its mutable state. `std::array::from_fn` itself uses
the ascending index list `List.range N`. -/
def fromFnCore (f : A → Nat → A × T) : A → List Nat → A × List T
  | s, [] => (s, [])
  | s, i :: is =>
    let p := f s i
    let q := fromFnCore f p.1 is
    (q.1, p.2 :: q.2)

/-- Embeds `Array::from_fn` (src/lib.rs:217-223): `std::array::from_fn(f)`,
which calls `f(i)` for `i = 0..N` in ascending order. -/
def from_fn (N : Nat) (f : Nat → T) : List T :=
  (fromFnCore (fun s i => (s, f i)) () (List.range N)).2

/-- Embeds `Array::from_iter`, non-nightly path (src/lib.rs:231-238): fills the
`N` slots in order with `iter.next()?`, returning `none` the first time
the iterator is exhausted. The result pairs the produced array with the
iterator's remaining items, so consumption is observable. -/
def from_iter (T : Type u) : Nat → List T → Option (List T × List T)
  | 0, it => some ([], it)
  | _ + 1, [] => none
  | n + 1, t :: ts => (from_iter T n ts).map (fun p => (t :: p.1, p.2))

/-- Core of `Array::resize_with` (src/lib.rs:208-215):
`std::array::from_fn(|i| if i < N { a.next().unwrap() } else { f(i) })`
where `a` is the source array's iterator. Processes the given index list
in order; `rest` is the iterator state. Returns `none` if an `unwrap`
panics, otherwise the produced elements, the indices at which the
generator `f` was invoked (in invocation order), and the iterator's
remaining items. -/
def resizeCore (N : Nat) (f : Nat → T) : List Nat → List T → Option (List T × List Nat × List T)
  | [], rest => some ([], [], rest)
  | i :: is, rest =>
    if i < N then
      match rest with
      | [] => none
      | t :: ts => (resizeCore N f is ts).map (fun p => (t :: p.1, p.2.1, p.2.2))
    else
      (resizeCore N f is rest).map (fun p => (f i :: p.1, i :: p.2.1, p.2.2))

/-- Embeds `Array::resize_with` (src/lib.rs:208-215) for an array of length `N`
resized to length `S`: runs `resizeCore` over the indices `0..S`. -/
def resize_with (a : List T) (S : Nat) (f : Nat → T) : Option (List T × List Nat × List T) :=
  resizeCore a.length f (List.range S) a

/-- Embeds `Array::resize` (src/lib.rs:200-206): `self.resize_with(|_| elem.clone())`. -/
def resize (a : List T) (S : Nat) (elem : T) : Option (List T × List Nat × List T) :=
  resize_with a S (fun _ => elem)

/-- Core of `ArrayN::zip_with` (src/lib.rs:293-300):
`let mut b = other.into_iter(); self.map(|a| f(a, b.next().unwrap()))`.
Visits the primary array in ascending index order threading the `FnMut`
closure's state; `none` marks the `unwrap` panic on a too-short companion
iterator. -/
def zipWithCore (f : A → T → U → A × V) : A → List T → List U → Option (A × List V)
  | s, [], _ => some (s, [])
  | _, _ :: _, [] => none
  | s, t :: ts, u :: us =>
    let p := f s t u
    (zipWithCore f p.1 ts us).map (fun q => (q.1, p.2 :: q.2))

/-- Embeds `ArrayN::zip_with` with a pure closure: the value part of `zipWithCore`. -/
def zip_with (a : List T) (b : List U) (f : T → U → V) : Option (List V) :=
  (zipWithCore (fun s t u => (s, f t u)) () a b).map (fun p => p.2)

/-- Embeds `ArrayN::zip3_with` (src/lib.rs:302-310): as `zip_with` with two
companion iterators, unwrapped left to right. -/
def zip3_with : List T → List U → List V → (T → U → V → W) → Option (List W)
  | [], _, _, _ => some []
  | _ :: _, [], _, _ => none
  | _ :: _, _ :: _, [], _ => none
  | t :: ts, u :: us, v :: vs, f => (zip3_with ts us vs f).map (fun r => f t u v :: r)

/-- Embeds `ArrayN::zip4_with` (src/lib.rs:312-321): three companion iterators. -/
def zip4_with : List T → List U → List V → List W → (T → U → V → W → X) → Option (List X)
  | [], _, _, _, _ => some []
  | _ :: _, [], _, _, _ => none
  | _ :: _, _ :: _, [], _, _ => none
  | _ :: _, _ :: _, _ :: _, [], _ => none
  | t :: ts, u :: us, v :: vs, w :: ws, f =>
    (zip4_with ts us vs ws f).map (fun r => f t u v w :: r)

/-- Embeds `ArrayN::zip5_with` (src/lib.rs:323-343): four companion iterators. -/
def zip5_with : List T → List U → List V → List W → List A → (T → U → V → W → A → X) → Option (List X)
  | [], _, _, _, _, _ => some []
  | _ :: _, [], _, _, _, _ => none
  | _ :: _, _ :: _, [], _, _, _ => none
  | _ :: _, _ :: _, _ :: _, [], _, _ => none
  | _ :: _, _ :: _, _ :: _, _ :: _, [], _ => none
  | t :: ts, u :: us, v :: vs, w :: ws, a :: as_, f =>
    (zip5_with ts us vs ws as_ f).map (fun r => f t u v w a :: r)

/-! ### Basic lemmas about the embedding -/

theorem mapCore_pure (f : T → U) (s : A) (a : List T) :
    mapCore (fun s t => (s, f t)) s a = (s, a.map f) := by
  induction a generalizing s with
  | nil => rfl
  | cons t ts ih => simp [mapCore, ih]

theorem map_eq_list_map (a : List T) (f : T → U) : map a f = a.map f := by
  simp [map, mapCore_pure]

theorem mapCore_trace (f : T → U) (s : List T) (a : List T) :
    mapCore (fun s t => (s ++ [t], f t)) s a = (s ++ a, a.map f) := by
  induction a generalizing s with
  | nil => simp [mapCore]
  | cons t ts ih => simp [mapCore, ih]

theorem foldl_concat (xs : List T) (x : T) (acc : A) (f : A → T → A) :
    foldl (xs ++ [x]) acc f = f (foldl xs acc f) x := by
  induction xs generalizing acc with
  | nil => rfl
  | cons t ts ih => simp [foldl, ih]

theorem from_iter_eq_none_iff (N : Nat) (it : List T) :
    from_iter T N it = none ↔ it.length < N := by
  induction N generalizing it with
  | zero => simp [from_iter]
  | succ n ih =>
    cases it with
    | nil => simp [from_iter]
    | cons t ts => simp [from_iter, ih, Nat.succ_lt_succ_iff]

theorem from_iter_eq_some (N : Nat) (it : List T) (h : N ≤ it.length) :
    from_iter T N it = some (it.take N, it.drop N) := by
  induction N generalizing it with
  | zero => simp [from_iter]
  | succ n ih =>
    cases it with
    | nil => simp at h
    | cons t ts =>
      have h2 := ih ts (Nat.le_of_succ_le_succ h)
      simp [from_iter, h2]

theorem fromFnCore_pure (f : Nat → T) (s : A) (l : List Nat) :
    fromFnCore (fun s i => (s, f i)) s l = (s, l.map f) := by
  induction l generalizing s with
  | nil => rfl
  | cons i is ih => simp [fromFnCore, ih]

theorem fromFnCore_trace (f : Nat → T) (s : List Nat) (l : List Nat) :
    fromFnCore (fun s i => (s ++ [i], f i)) s l = (s ++ l, l.map f) := by
  induction l generalizing s with
  | nil => simp [fromFnCore]
  | cons i is ih => simp [fromFnCore, ih]

theorem from_fn_eq_map_range (N : Nat) (f : Nat → T) :
    from_fn N f = (List.range N).map f := by
  simp [from_fn, fromFnCore_pure]

theorem get_eq_some (a : List T) (i : Nat) (h : i < a.length) :
    get a i = some (a.get ⟨i, h⟩) := by
  simp [get, h]

theorem get_eq_none_iff (a : List T) (i : Nat) : get a i = none ↔ a.length ≤ i := by
  by_cases h : i < a.length <;> simp [get, h] <;> omega

theorem get_mut_eq_none_iff (a : List T) (i : Nat) : get_mut a i = none ↔ a.length ≤ i := by
  by_cases h : i < a.length <;> simp [get_mut, h] <;> omega

theorem zipWithCore_pure (f : T → U → V) :
    ∀ (a : List T) (b : List U) (s : A), a.length ≤ b.length →
    zipWithCore (fun s t u => (s, f t u)) s a b = some (s, List.zipWith f a b)
  | [], _, s, _ => by simp [zipWithCore]
  | t :: ts, [], s, h => by simp at h
  | t :: ts, u :: us, s, h => by
    have h2 := zipWithCore_pure f ts us s (Nat.le_of_succ_le_succ h)
    simp [zipWithCore, h2]

theorem zipWithCore_trace (f : T → U → V) :
    ∀ (a : List T) (b : List U) (s : List (T × U)), a.length ≤ b.length →
    zipWithCore (fun s t u => (s ++ [(t, u)], f t u)) s a b =
      some (s ++ a.zip b, List.zipWith f a b)
  | [], _, s, _ => by simp [zipWithCore]
  | t :: ts, [], s, h => by simp at h
  | t :: ts, u :: us, s, h => by
    have h2 := zipWithCore_trace f ts us (s ++ [(t, u)]) (Nat.le_of_succ_le_succ h)
    simp [zipWithCore, h2]

theorem zip_with_eq_some (a : List T) (b : List U) (f : T → U → V) (h : a.length ≤ b.length) :
    zip_with a b f = some (List.zipWith f a b) := by
  simp [zip_with, zipWithCore_pure f a b () h]

theorem zip3_with_isSome (f : T → U → V → W) :
    ∀ (a : List T) (b : List U) (c : List V),
    a.length ≤ b.length → a.length ≤ c.length → (zip3_with a b c f).isSome = true
  | [], _, _, _, _ => rfl
  | t :: ts, [], _, hb, _ => by simp at hb
  | t :: ts, u :: us, [], _, hc => by simp at hc
  | t :: ts, u :: us, v :: vs, hb, hc => by
    have h2 := zip3_with_isSome f ts us vs (Nat.le_of_succ_le_succ hb) (Nat.le_of_succ_le_succ hc)
    simpa [zip3_with] using h2

theorem zip4_with_isSome (f : T → U → V → W → X) :
    ∀ (a : List T) (b : List U) (c : List V) (d : List W),
    a.length ≤ b.length → a.length ≤ c.length → a.length ≤ d.length →
    (zip4_with a b c d f).isSome = true
  | [], _, _, _, _, _, _ => rfl
  | t :: ts, [], _, _, hb, _, _ => by simp at hb
  | t :: ts, u :: us, [], _, _, hc, _ => by simp at hc
  | t :: ts, u :: us, v :: vs, [], _, _, hd => by simp at hd
  | t :: ts, u :: us, v :: vs, w :: ws, hb, hc, hd => by
    have h2 := zip4_with_isSome f ts us vs ws (Nat.le_of_succ_le_succ hb)
      (Nat.le_of_succ_le_succ hc) (Nat.le_of_succ_le_succ hd)
    simpa [zip4_with] using h2

theorem zip5_with_isSome (f : T → U → V → W → A → X) :
    ∀ (a : List T) (b : List U) (c : List V) (d : List W) (e : List A),
    a.length ≤ b.length → a.length ≤ c.length → a.length ≤ d.length → a.length ≤ e.length →
    (zip5_with a b c d e f).isSome = true
  | [], _, _, _, _, _, _, _, _ => rfl
  | t :: ts, [], _, _, _, hb, _, _, _ => by simp at hb
  | t :: ts, u :: us, [], _, _, _, hc, _, _ => by simp at hc
  | t :: ts, u :: us, v :: vs, [], _, _, _, hd, _ => by simp at hd
  | t :: ts, u :: us, v :: vs, w :: ws, [], _, _, _, he => by simp at he
  | t :: ts, u :: us, v :: vs, w :: ws, x0 :: xs, hb, hc, hd, he => by
    have h2 := zip5_with_isSome f ts us vs ws xs (Nat.le_of_succ_le_succ hb)
      (Nat.le_of_succ_le_succ hc) (Nat.le_of_succ_le_succ hd) (Nat.le_of_succ_le_succ he)
    simpa [zip5_with] using h2

theorem resizeCore_low (N : Nat) (f : Nat → T) :
    ∀ (m k : Nat) (rest : List T), k + m ≤ N → m ≤ rest.length →
    resizeCore N f (List.range' k m) rest = some (rest.take m, [], rest.drop m)
  | 0, k, rest, _, _ => by simp [resizeCore]
  | m + 1, k, [], _, h2 => by simp at h2
  | m + 1, k, t :: ts, h1, h2 => by
    have hk : k < N := by omega
    have ih := resizeCore_low N f m (k + 1) ts (by omega) (by simpa using Nat.le_of_succ_le_succ h2)
    simp [List.range'_succ, resizeCore, hk, ih]

theorem resizeCore_high (N : Nat) (f : Nat → T) :
    ∀ (m k : Nat) (rest : List T), N ≤ k →
    resizeCore N f (List.range' k m) rest = some ((List.range' k m).map f, List.range' k m, rest)
  | 0, _, rest, _ => by simp [resizeCore]
  | m + 1, k, rest, h => by
    have hk : ¬ k < N := by omega
    have ih := resizeCore_high N f m (k + 1) rest (by omega)
    simp [List.range'_succ, resizeCore, hk, ih]

theorem resizeCore_cons_lt (N : Nat) (f : Nat → T) (i : Nat) (is : List Nat) (t : T)
    (ts : List T) (hi : i < N) :
    resizeCore N f (i :: is) (t :: ts) =
      (resizeCore N f is ts).map (fun p => (t :: p.1, p.2.1, p.2.2)) := by
  simp [resizeCore, hi]

theorem resizeCore_cons_lt_nil (N : Nat) (f : Nat → T) (i : Nat) (is : List Nat)
    (hi : i < N) : resizeCore N f (i :: is) ([] : List T) = none := by
  simp [resizeCore, hi]

theorem resizeCore_cons_ge (N : Nat) (f : Nat → T) (i : Nat) (is : List Nat)
    (rest : List T) (hi : ¬ i < N) :
    resizeCore N f (i :: is) rest =
      (resizeCore N f is rest).map (fun p => (f i :: p.1, i :: p.2.1, p.2.2)) := by
  cases rest <;> simp [resizeCore, hi]

theorem resizeCore_append (N : Nat) (f : Nat → T) :
    ∀ (is1 is2 : List Nat) (rest : List T),
    resizeCore N f (is1 ++ is2) rest =
      (resizeCore N f is1 rest).bind (fun p =>
        (resizeCore N f is2 p.2.2).map (fun q => (p.1 ++ q.1, p.2.1 ++ q.2.1, q.2.2)))
  | [], is2, rest => by
    cases h : resizeCore N f is2 rest <;> simp [resizeCore, h]
  | i :: is1, is2, rest => by
    by_cases hi : i < N
    · cases rest with
      | nil => simp [resizeCore_cons_lt_nil, hi]
      | cons t ts =>
        rw [List.cons_append, resizeCore_cons_lt N f i (is1 ++ is2) t ts hi,
          resizeCore_append N f is1 is2 ts, resizeCore_cons_lt N f i is1 t ts hi]
        cases h1 : resizeCore N f is1 ts with
        | none => simp
        | some p => cases h2 : resizeCore N f is2 p.2.2 <;> simp [h2]
    · rw [List.cons_append, resizeCore_cons_ge N f i (is1 ++ is2) rest hi,
        resizeCore_append N f is1 is2 rest, resizeCore_cons_ge N f i is1 rest hi]
      cases h1 : resizeCore N f is1 rest with
      | none => simp
      | some p => cases h2 : resizeCore N f is2 p.2.2 <;> simp [h2]

theorem range_split (N S : Nat) (h : N ≤ S) :
    List.range S = List.range' 0 N ++ List.range' N (S - N) := by
  have h2 : S - N + N = S := by omega
  calc List.range S = List.range' 0 S := List.range_eq_range' S
  _ = List.range' 0 (S - N + N) := by rw [h2]
  _ = List.range' 0 N ++ List.range' (0 + N) (S - N) := (List.range'_append_1 0 N (S - N)).symm
  _ = List.range' 0 N ++ List.range' N (S - N) := by rw [Nat.zero_add]

theorem resize_with_eq_of_le (a : List T) (S : Nat) (f : Nat → T) (h : a.length ≤ S) :
    resize_with a S f =
      some (a ++ (List.range' a.length (S - a.length)).map f,
        List.range' a.length (S - a.length), []) := by
  rw [resize_with, range_split a.length S h, resizeCore_append]
  have h1 := resizeCore_low a.length f a.length 0 a (by omega) (by omega)
  have h2 := resizeCore_high a.length f (S - a.length) a.length ([] : List T) (Nat.le_refl _)
  simp only [Nat.zero_add] at h1
  rw [List.take_length, List.drop_length] at h1
  rw [h1]
  simp [h2]

theorem resize_with_eq_of_ge (a : List T) (S : Nat) (f : Nat → T) (h : S ≤ a.length) :
    resize_with a S f = some (a.take S, [], a.drop S) := by
  rw [resize_with, List.range_eq_range']
  exact resizeCore_low a.length f S 0 a (by omega) (by omega)

/-! ### Claim theorems -/

/-- C8: `map_` with the identity transform returns the array unchanged, for
arrays of every length. -/
theorem map_id_spec (a : List T) : map_ a id = a := by
  simp [map_, map_eq_list_map]

/-- C4: `foldr` equals `foldl` of the reversed array with the same seed and
combine function; `foldr` combines the last element first, while `foldl`
combines the last element last (ascending index order). -/
theorem foldr_spec (a xs : List T) (x : T) (acc : A) (f : A → T → A) :
    foldr a acc f = foldl a.reverse acc f ∧
    foldr (xs ++ [x]) acc f = foldr xs (f acc x) f ∧
    foldl (xs ++ [x]) acc f = f (foldl xs acc f) x := by
  refine ⟨rfl, ?_, foldl_concat xs x acc f⟩
  simp [foldr, List.reverse_append, foldl]

/-- C1: `from_iter` returns `none` iff the iterator yields fewer than `N`
items; with at least `N` items it consumes exactly `N` of them and the
array is the first `N` items in order (the iterator keeps `it.drop N`). -/
theorem from_iter_spec (N : Nat) (it : List T) :
    (from_iter T N it = none ↔ it.length < N) ∧
    (N ≤ it.length → from_iter T N it = some (it.take N, it.drop N)) :=
  ⟨from_iter_eq_none_iff N it, from_iter_eq_some N it⟩

/-- C1 witness at the spec's examples. -/
theorem from_iter_spec_witness :
    from_iter Nat 5 [1, 2, 3, 4, 5, 6] = some ([1, 2, 3, 4, 5], [6]) ∧
    from_iter Nat 5 [1, 2] = none := by
  constructor
  · have h := (from_iter_spec 5 ([1, 2, 3, 4, 5, 6] : List Nat)).2 (by decide)
    simpa using h
  · exact (from_iter_spec 5 ([1, 2] : List Nat)).1.mpr (by decide)

/-- C7: `from_fn` calls the generator on each index of `0..N` in ascending
order, and `get i` on the result yields the generator's value at `i`. -/
theorem from_fn_spec (N : Nat) (f : Nat → T) :
    (from_fn N f).length = N ∧
    (∀ i, i < N → get (from_fn N f) i = some (f i)) ∧
    (∀ s : List Nat, (fromFnCore (fun s i => (s ++ [i], f i)) s (List.range N)).1 = s ++ List.range N) := by
  refine ⟨by simp [from_fn_eq_map_range], ?_, ?_⟩
  · intro i hi
    have h2 : i < (from_fn N f).length := by simp [from_fn_eq_map_range, hi]
    rw [get_eq_some _ _ h2]
    simp [from_fn_eq_map_range]
  · intro s
    simp [fromFnCore_trace]

/-- C7 witness: the generator's value is read back at a concrete index. -/
theorem from_fn_spec_witness : get (from_fn 3 (fun i => i * i)) 2 = some 4 := by
  have h := (from_fn_spec 3 (fun i => i * i)).2.1 2 (by decide)
  simpa using h

/-- C3: `get` and `get_mut` return `none` exactly when the index is out of
range, and for an in-range index `get i` is the element of the slice view
at `i`; both are total, with no panicking path. -/
theorem get_spec (a : List T) (i : Nat) :
    (get a i = none ↔ a.length ≤ i) ∧
    (get_mut a i = none ↔ a.length ≤ i) ∧
    (∀ h : i < a.length, get a i = some ((as_slice a).get ⟨i, h⟩)) :=
  ⟨get_eq_none_iff a i, get_mut_eq_none_iff a i, fun h => get_eq_some a i h⟩

/-- C3 witness: in-range and out-of-range accesses on a concrete array. -/
theorem get_spec_witness :
    get [(10 : Nat), 20, 30] 1 = some 20 ∧
    get [(10 : Nat), 20, 30] 5 = none ∧
    get_mut [(10 : Nat), 20, 30] 5 = none := by
  refine ⟨?_, ?_, ?_⟩
  · have h := (get_spec [(10 : Nat), 20, 30] 1).2.2 (by decide)
    simpa [as_slice] using h
  · exact (get_spec [(10 : Nat), 20, 30] 5).1.mpr (by decide)
  · exact (get_spec [(10 : Nat), 20, 30] 5).2.1.mpr (by decide)

/-- C5: `map` preserves the length, the element at each index `i` of the
result is the transform of the input element at `i`, and the transform is
invoked exactly once per element in ascending index order (its call trace
is the input array itself). -/
theorem map_spec (a : List T) (f : T → U) :
    (map a f).length = a.length ∧
    (∀ i, ∀ h : i < a.length, get (map a f) i = some (f (a.get ⟨i, h⟩))) ∧
    (∀ s : List T, (mapCore (fun s t => (s ++ [t], f t)) s a).1 = s ++ a) := by
  refine ⟨by simp [map_eq_list_map], ?_, ?_⟩
  · intro i h
    have h2 : i < (map a f).length := by simp [map_eq_list_map, h]
    rw [get_eq_some _ _ h2]
    simp [map_eq_list_map]
  · intro s
    simp [mapCore_trace]

/-- C5 witness: a transformed element read back at a concrete index. -/
theorem map_spec_witness : get (map [(1 : Nat), 2, 3] (fun t => t + 10)) 2 = some 13 := by
  have h := (map_spec [(1 : Nat), 2, 3] (fun t => t + 10)).2.1 2 (by decide)
  simpa using h

/-- C6: with equal lengths, `zip_with` succeeds and pairs elements by
matching index — the element at index `i` of the result is the combine
function applied to the elements at index `i` of the two inputs — and the
combine closure is invoked on those pairs in ascending index order (its
call trace is `a.zip b`). -/
theorem zip_with_spec (a : List T) (b : List U) (f : T → U → V) (h : a.length = b.length) :
    zip_with a b f = some (List.zipWith f a b) ∧
    (∀ i, i < a.length → ∃ t u, get a i = some t ∧ get b i = some u ∧
      get (List.zipWith f a b) i = some (f t u)) ∧
    (zipWithCore (fun s t u => (s ++ [(t, u)], f t u)) [] a b).map (fun p => p.1) =
      some (a.zip b) := by
  refine ⟨zip_with_eq_some a b f (Nat.le_of_eq h), ?_, ?_⟩
  · intro i hi
    have hib : i < b.length := h ▸ hi
    have hiz : i < (List.zipWith f a b).length := by simp [List.length_zipWith]; omega
    exact ⟨a.get ⟨i, hi⟩, b.get ⟨i, hib⟩, get_eq_some a i hi, get_eq_some b i hib, by
      rw [get_eq_some _ _ hiz]; simp⟩
  · rw [zipWithCore_trace f a b [] (Nat.le_of_eq h)]
    simp

/-- C6 witness at the spec's example. -/
theorem zip_with_spec_witness :
    zip_with [(1 : Nat), 2, 3] [(10 : Nat), 20, 30] (fun t u => t + u) = some [11, 22, 33] := by
  have h := (zip_with_spec [(1 : Nat), 2, 3] [(10 : Nat), 20, 30] (fun t u => t + u) (by decide)).1
  simpa using h

/-- C9: when all the input arrays share the length `N`, the internal
`unwrap`s of `zip_with`, `zip3_with`, `zip4_with` and `zip5_with` never
see an exhausted companion iterator: all four return a value instead of
hitting the panic marker. -/
theorem zip_unwrap_safe (a : List T) (b : List U) (c : List V) (d : List W) (e : List A)
    (f2 : T → U → V) (f3 : T → U → V → W) (f4 : T → U → V → W → X)
    (f5 : T → U → V → W → A → X)
    (hb : b.length = a.length) (hc : c.length = a.length) (hd : d.length = a.length)
    (he : e.length = a.length) :
    (zip_with a b f2).isSome = true ∧ (zip3_with a b c f3).isSome = true ∧
    (zip4_with a b c d f4).isSome = true ∧ (zip5_with a b c d e f5).isSome = true := by
  refine ⟨?_, ?_, ?_, ?_⟩
  · rw [zip_with_eq_some a b f2 (Nat.le_of_eq hb.symm)]; rfl
  · exact zip3_with_isSome f3 a b c (Nat.le_of_eq hb.symm) (Nat.le_of_eq hc.symm)
  · exact zip4_with_isSome f4 a b c d (Nat.le_of_eq hb.symm) (Nat.le_of_eq hc.symm)
      (Nat.le_of_eq hd.symm)
  · exact zip5_with_isSome f5 a b c d e (Nat.le_of_eq hb.symm) (Nat.le_of_eq hc.symm)
      (Nat.le_of_eq hd.symm) (Nat.le_of_eq he.symm)

/-- C9 witness: all four zips succeed on concrete equal-length arrays. -/
theorem zip_unwrap_safe_witness :
    (zip_with [(1 : Nat), 2] [(3 : Nat), 4] (fun t u => t + u)).isSome = true ∧
    (zip3_with [(1 : Nat), 2] [(3 : Nat), 4] [(5 : Nat), 6] (fun t u v => t + u + v)).isSome = true ∧
    (zip4_with [(1 : Nat), 2] [(3 : Nat), 4] [(5 : Nat), 6] [(7 : Nat), 8]
      (fun t u v w => t + u + v + w)).isSome = true ∧
    (zip5_with [(1 : Nat), 2] [(3 : Nat), 4] [(5 : Nat), 6] [(7 : Nat), 8] [(9 : Nat), 10]
      (fun t u v w x0 => t + u + v + w + x0)).isSome = true :=
  zip_unwrap_safe [(1 : Nat), 2] [(3 : Nat), 4] [(5 : Nat), 6] [(7 : Nat), 8] [(9 : Nat), 10]
    (fun t u => t + u) (fun t u v => t + u + v) (fun t u v w => t + u + v + w)
    (fun t u v w x0 => t + u + v + w + x0) rfl rfl rfl rfl

/-- C2: `resize_with` to `S ≥ N` keeps the original `N` elements in place
and fills each index of `N..S` with the generator applied to that absolute
index; `resize` fills with copies of the element; to `S < N` both truncate
to the first `S` elements. -/
theorem resize_spec (a : List T) (S : Nat) (f : Nat → T) (elem : T) :
    (a.length ≤ S →
      (resize_with a S f).map (fun p => p.1) =
        some (a ++ (List.range' a.length (S - a.length)).map f) ∧
      (resize a S elem).map (fun p => p.1) =
        some (a ++ List.replicate (S - a.length) elem)) ∧
    (S < a.length →
      (resize_with a S f).map (fun p => p.1) = some (a.take S) ∧
      (resize a S elem).map (fun p => p.1) = some (a.take S)) := by
  constructor
  · intro h
    constructor
    · rw [resize_with_eq_of_le a S f h]
      rfl
    · rw [resize, resize_with_eq_of_le a S (fun _ => elem) h]
      simp [List.map_const']
  · intro h
    constructor
    · rw [resize_with_eq_of_ge a S f (Nat.le_of_lt h)]
      rfl
    · rw [resize, resize_with_eq_of_ge a S (fun _ => elem) (Nat.le_of_lt h)]
      rfl

/-- C2 witness at the spec's examples. -/
theorem resize_spec_witness :
    (resize [(1 : Nat), 2, 3] 5 42).map (fun p => p.1) = some [1, 2, 3, 42, 42] ∧
    (resize [(1 : Nat), 2, 3] 2 7).map (fun p => p.1) = some [1, 2] := by
  constructor
  · have h := ((resize_spec [(1 : Nat), 2, 3] 5 (fun _ => 42) 42).1 (by decide)).2
    simpa using h
  · have h := ((resize_spec [(1 : Nat), 2, 3] 2 (fun _ => 7) 7).2 (by decide)).2
    simpa using h

/-- C10: the generator-call trace of `resize_with` is exactly the ascending
index list `N..S` when growing — each such index once, none below `N` —
and is empty when `S ≤ N`, so `resize` clones the fill element zero times
on truncation or same-length resize. -/
theorem resize_calls_spec (a : List T) (S : Nat) (f : Nat → T) (elem : T) :
    (a.length ≤ S →
      (resize_with a S f).map (fun p => p.2.1) =
        some (List.range' a.length (S - a.length))) ∧
    (S ≤ a.length →
      (resize_with a S f).map (fun p => p.2.1) = some [] ∧
      (resize a S elem).map (fun p => p.2.1) = some []) := by
  constructor
  · intro h
    rw [resize_with_eq_of_le a S f h]
    rfl
  · intro h
    constructor
    · rw [resize_with_eq_of_ge a S f h]
      rfl
    · rw [resize, resize_with_eq_of_ge a S (fun _ => elem) h]
      rfl

/-- C10 witness: growing `[1,2,3]` to length 5 invokes the generator on
exactly the indices 3 and 4 in order; truncating to length 2 invokes it
never, and `resize` clones nothing. -/
theorem resize_calls_spec_witness :
    (resize_with [(1 : Nat), 2, 3] 5 (fun i => i)).map (fun p => p.2.1) = some [3, 4] ∧
    (resize_with [(1 : Nat), 2, 3] 2 (fun i => i)).map (fun p => p.2.1) = some [] ∧
    (resize [(1 : Nat), 2, 3] 2 9).map (fun p => p.2.1) = some [] := by
  refine ⟨?_, ?_, ?_⟩
  · have h := (resize_calls_spec [(1 : Nat), 2, 3] 5 (fun i => i) 0).1 (by decide)
    simpa [List.range'] using h
  · exact ((resize_calls_spec [(1 : Nat), 2, 3] 2 (fun i => i) 0).2 (by decide)).1
  · exact ((resize_calls_spec [(1 : Nat), 2, 3] 2 (fun i => i) 9).2 (by decide)).2

end ArrayExt
